import Mathlib

/-!
Shallow embedding of `src/native/snippet-expander-win.c` (SuperCmd):
a global snippet keyword watcher.  Bytes are modelled as `Nat` values
in `0..255`; C strings (which cannot contain NUL) are `List Nat` of
nonzero bytes.  The global mutable state of the C program is passed
explicitly: the keyword registry, the character classifier tables and
the rolling token buffer.
-/

namespace SnippetExpander

/-- `#define MAX_KEYWORDS 512` -/
def MAX_KEYWORDS : Nat := 512

/-- `#define MAX_KEYWORD_LEN 128` -/
def MAX_KEYWORD_LEN : Nat := 128

/-- `#define MAX_TOKEN_LEN 512` -/
def MAX_TOKEN_LEN : Nat := 512

/-- C `tolower((unsigned char)c)` in the default locale: ASCII uppercase
letters map down by 32, every other byte is unchanged. -/
def toLowerByte (c : Nat) : Nat := if 65 ≤ c ∧ c ≤ 90 then c + 32 else c

/-- The registry globals: `g_keywords` (in insertion order, each entry a
NUL-free byte string) together with `g_keyword_count` (the list length)
and `g_max_keyword_len`. -/
structure Registry where
  keywords : List (List Nat)
  maxKeywordLen : Nat
deriving DecidableEq

/-- Initial registry state: `g_keyword_count = 0`, `g_max_keyword_len = 1`. -/
def initRegistry : Registry := ⟨[], 1⟩

/-- The normalisation performed by `append_keyword`'s copy loop:
lower-case each byte and keep at most `MAX_KEYWORD_LEN` of them. -/
def normalizeKeyword (src : List Nat) : List Nat :=
  (src.map toLowerByte).take MAX_KEYWORD_LEN

/-- `append_keyword(src)`: returns the new registry state and the C
function's int result as a `Bool` (`1` = true, `0` = false).  The
capacity check precedes normalisation and the duplicate scan, exactly
as in the source. -/
def append_keyword (r : Registry) (src : List Nat) : Registry × Bool :=
  if MAX_KEYWORDS ≤ r.keywords.length then (r, false)
  else
    let buf := normalizeKeyword src
    if buf.length = 0 then (r, false)
    else if buf ∈ r.keywords then (r, true)
    else (⟨r.keywords ++ [buf], max r.maxKeywordLen buf.length⟩, true)

/-- The classifier globals `g_allowed` and `g_delimiters`, as boolean
tables over byte values. -/
structure Charsets where
  allowed : Nat → Bool
  delimiters : Nat → Bool

/-- The byte values of the C string literal
`" \t\r\n.,!?;:()[]{}<>/\\|@#$%^&*+=`~\"'"` used to seed `g_delimiters`. -/
def defaultDelimiterBytes : List Nat :=
  [32, 9, 13, 10, 46, 44, 33, 63, 59, 58, 40, 41, 91, 93, 123, 125,
   60, 62, 47, 92, 124, 64, 35, 36, 37, 94, 38, 42, 43, 61, 96, 126, 34, 39]

/-- `seed_charsets()`: allowed = ASCII lowercase letters, digits, hyphen,
underscore; delimiters = the fixed whitespace-and-punctuation set. -/
def seed_charsets : Charsets where
  allowed := fun c =>
    decide (97 ≤ c ∧ c ≤ 122) || decide (48 ≤ c ∧ c ≤ 57) ||
    decide (c = 45) || decide (c = 95)
  delimiters := fun c => decide (c ∈ defaultDelimiterBytes)

/-- The whitespace test in `apply_keyword_chars_to_charsets`:
`c == '\r' || c == '\n' || c == '\t' || c == ' '`. -/
def isKeywordWhitespace (c : Nat) : Bool :=
  decide (c = 13) || decide (c = 10) || decide (c = 9) || decide (c = 32)

/-- One iteration of the inner loop of `apply_keyword_chars_to_charsets`:
lower-case the keyword byte, skip whitespace, otherwise force it into
`g_allowed` and out of `g_delimiters`. -/
def applyKeywordByte (cs : Charsets) (b : Nat) : Charsets :=
  let c := toLowerByte b
  if isKeywordWhitespace c then cs
  else
    { allowed := fun x => if x = c then true else cs.allowed x
      delimiters := fun x => if x = c then false else cs.delimiters x }

/-- `apply_keyword_chars_to_charsets()`: the widening pass over every
byte of every registered keyword. -/
def apply_keyword_chars_to_charsets (cs : Charsets) (kws : List (List Nat)) : Charsets :=
  kws.foldl (fun acc kw => kw.foldl applyKeywordByte acc) cs

/-- A keyword-match event as emitted by `emit_keyword`: the matched
keyword text and the delimiter byte (`0` is the sentinel used on the
token-character path). -/
structure Event where
  keyword : List Nat
  delimiter : Nat
deriving DecidableEq

/-- The immutable engine configuration once startup is complete: the
registry contents and the classifier tables. -/
structure EngineConfig where
  keywords : List (List Nat)
  maxKeywordLen : Nat
  charsets : Charsets

/-- `keyword_index(text) >= 0`: the text is non-empty and equals one of
the stored keywords (strcmp equality; no stored string contains NUL). -/
def keyword_found (kws : List (List Nat)) (t : List Nat) : Bool :=
  decide (t ≠ []) && decide (t ∈ kws)

/-- `trim_token_to_max()`: if the buffer is longer than
`g_max_keyword_len`, drop leading bytes so that exactly the most recent
`g_max_keyword_len` bytes remain. -/
def trim_token_to_max (maxLen : Nat) (t : List Nat) : List Nat :=
  if t.length ≤ maxLen then t else t.drop (t.length - maxLen)

/-- `process_char(raw)`: returns the new token buffer and the list of
emitted events (empty or a single event). -/
def process_char (cfg : EngineConfig) (t : List Nat) (raw : Nat) : List Nat × List Event :=
  let c := toLowerByte raw
  if cfg.charsets.allowed c then
    let t1 := if t.length < MAX_TOKEN_LEN then t ++ [c] else t
    let t2 := trim_token_to_max cfg.maxKeywordLen t1
    if keyword_found cfg.keywords t2 then ([], [⟨t2, 0⟩]) else (t2, [])
  else if cfg.charsets.delimiters c then
    if t.length ≠ 0 && keyword_found cfg.keywords t then ([], [⟨t, c⟩])
    else ([], [])
  else ([], [])

/-- Feed a sequence of raw characters through `process_char`,
accumulating the emitted events in order. -/
def runChars (cfg : EngineConfig) (t : List Nat) (cs : List Nat) : List Nat × List Event :=
  cs.foldl (fun acc c =>
    let r := process_char cfg acc.1 c
    (r.1, acc.2 ++ r.2)) (t, [])

/-- The outcome of the decode half of `process_key_event`: keyboard
state snapshot failure, `ToUnicodeEx` returning 0 (no character),
a negative return (dead-key pending; the code issues a neutralising
decode, which touches no engine state), or one or more UTF-16 units. -/
inductive DecodeOutcome where
  | stateFail : DecodeOutcome
  | noChar : DecodeOutcome
  | deadKey : DecodeOutcome
  | units : List Nat → DecodeOutcome

/-- A key-down event as seen by `process_key_event`: either backspace
(`VK_BACK`), or an ordinary key together with the modifier-held flag
(`is_modifier_down`) and the decode outcome for it. -/
inductive KeyInput where
  | backspace : KeyInput
  | key : Bool → DecodeOutcome → KeyInput

/-- `process_key_event(vk, scan_code)`: backspace shrinks the buffer by
one byte (if non-empty) with no match check; a held modifier clears the
buffer before any decode; a keyboard-state failure clears the buffer;
zero-character and dead-key outcomes leave the buffer alone; decoded
units are processed in order, any unit that is `0` or above `127`
clearing the buffer instead of being processed. -/
def process_key_event (cfg : EngineConfig) (t : List Nat) :
    KeyInput → List Nat × List Event
  | .backspace => (t.dropLast, [])
  | .key modifierDown dec =>
    if modifierDown then ([], [])
    else
      match dec with
      | .stateFail => ([], [])
      | .noChar => (t, [])
      | .deadKey => (t, [])
      | .units ws =>
        ws.foldl (fun acc wc =>
          if wc = 0 || decide (127 < wc) then ([], acc.2)
          else
            let r := process_char cfg acc.1 wc
            (r.1, acc.2 ++ r.2)) (t, [])

/-- Feed a sequence of key events through `process_key_event`,
accumulating the emitted events in order. -/
def runKeys (cfg : EngineConfig) (t : List Nat) (ks : List KeyInput) :
    List Nat × List Event :=
  ks.foldl (fun acc k =>
    let r := process_key_event cfg acc.1 k
    (r.1, acc.2 ++ r.2)) (t, [])

/-- State of the minimal JSON string scanner `parse_keywords_json`. -/
structure ParseState where
  inString : Bool
  escaped : Bool
  current : List Nat
  reg : Registry

/-- Escape handling inside a string literal: `\n`, `\r`, `\t` map to the
control bytes, any other escaped byte stands for itself. -/
def unescapeByte (ch : Nat) : Nat :=
  if ch = 110 then 10 else if ch = 114 then 13 else if ch = 116 then 9 else ch

/-- One character step of `parse_keywords_json`'s scanning loop. -/
def parseStep (ps : ParseState) (ch : Nat) : ParseState :=
  if ¬ps.inString then
    if ch = 34 then { ps with inString := true, escaped := false, current := [] }
    else ps
  else if ps.escaped then
    { ps with
      current :=
        if ps.current.length < MAX_KEYWORD_LEN then ps.current ++ [unescapeByte ch]
        else ps.current
      escaped := false }
  else if ch = 92 then { ps with escaped := true }
  else if ch = 34 then
    { ps with inString := false, reg := (append_keyword ps.reg ps.current).1 }
  else
    { ps with
      current :=
        if ps.current.length < MAX_KEYWORD_LEN then ps.current ++ [ch]
        else ps.current }

/-- `parse_keywords_json(json)`: scan the whole payload, returning the
resulting registry and the function's result `g_keyword_count > 0`. -/
def parse_keywords_json (json : List Nat) (r : Registry) : Registry × Bool :=
  let ps := json.foldl parseStep ⟨false, false, [], r⟩
  (ps.reg, decide (0 < ps.reg.keywords.length))

/-- The messages `main` can emit before or instead of entering the
message loop (keyword-match events happen only afterwards). -/
inductive StartupMsg where
  | errorUsage : StartupMsg
  | errorBadKeywords : StartupMsg
  | errorHook : StartupMsg
  | ready : StartupMsg
deriving DecidableEq

/-- Which startup messages are error messages. -/
def StartupMsg.isError : StartupMsg → Bool
  | .errorUsage => true
  | .errorBadKeywords => true
  | .errorHook => true
  | .ready => false

/-- `main`: `arg` is `argv[1]` when `argc >= 2`; `hookOk` abstracts
whether `SetWindowsHookExW` succeeds; the message loop and the host's
termination are outside the model, so the normal path returns exit
code `0` after emitting the ready message.  Result: the startup
messages emitted in order, and the process exit code. -/
def mainModel (arg : Option (List Nat)) (hookOk : Bool) :
    List StartupMsg × Nat :=
  match arg with
  | none => ([.errorUsage], 1)
  | some json =>
    let pr := parse_keywords_json json initRegistry
    if ¬pr.2 then ([.errorBadKeywords], 1)
    else if ¬hookOk then ([.errorHook], 2)
    else ([.ready], 0)

/-! ### Basic lemmas about the trim operation and keyword lookup -/

theorem trim_eq_drop (m : Nat) (l : List Nat) :
    trim_token_to_max m l = l.drop (l.length - m) := by
  unfold trim_token_to_max
  split
  · have : l.length - m = 0 := by omega
    simp [this]
  · rfl

theorem trim_length (m : Nat) (l : List Nat) :
    (trim_token_to_max m l).length = min l.length m := by
  rw [trim_eq_drop, List.length_drop]
  omega

theorem trim_length_le (m : Nat) (l : List Nat) :
    (trim_token_to_max m l).length ≤ m := by
  rw [trim_length]; omega

theorem trim_length_le_self (m : Nat) (l : List Nat) :
    (trim_token_to_max m l).length ≤ l.length := by
  rw [trim_length]; omega

theorem trim_of_le (m : Nat) (l : List Nat) (h : l.length ≤ m) :
    trim_token_to_max m l = l := by
  unfold trim_token_to_max
  simp [h]

/-- Re-trimming an already trimmed buffer after appending one byte gives
the same result as trimming the full appended run, provided the maximum
length is at least 1. -/
theorem trim_append_trim (m : Nat) (hm : 1 ≤ m) (l : List Nat) (x : Nat) :
    trim_token_to_max m (trim_token_to_max m l ++ [x]) =
      trim_token_to_max m (l ++ [x]) := by
  rw [trim_eq_drop m l, trim_eq_drop, trim_eq_drop]
  have hlen : (l.drop (l.length - m)).length = l.length - (l.length - m) :=
    List.length_drop _ _
  have hlen2 : (l.drop (l.length - m) ++ [x]).length =
      l.length - (l.length - m) + 1 := by simp [hlen]
  have hlen3 : (l ++ [x]).length = l.length + 1 := by simp
  rw [hlen2, hlen3]
  have h1 : l.length - (l.length - m) + 1 - m ≤ (l.drop (l.length - m)).length := by
    rw [hlen]; omega
  have h2 : l.length + 1 - m ≤ l.length := by omega
  rw [List.drop_append_of_le_length h1, List.drop_append_of_le_length h2,
    List.drop_drop]
  congr 2
  omega

theorem keyword_found_iff (kws : List (List Nat)) (t : List Nat) :
    keyword_found kws t = true ↔ t ≠ [] ∧ t ∈ kws := by
  unfold keyword_found
  simp

theorem keyword_found_nil (kws : List (List Nat)) :
    keyword_found kws [] = false := by
  unfold keyword_found
  simp

/-! ### Shape lemmas for process_char -/

theorem process_char_token (cfg : EngineConfig) (t : List Nat) (c : Nat)
    (hc : cfg.charsets.allowed (toLowerByte c) = true)
    (hlt : t.length < MAX_TOKEN_LEN) :
    process_char cfg t c =
      if keyword_found cfg.keywords
          (trim_token_to_max cfg.maxKeywordLen (t ++ [toLowerByte c])) then
        ([], [⟨trim_token_to_max cfg.maxKeywordLen (t ++ [toLowerByte c]), 0⟩])
      else (trim_token_to_max cfg.maxKeywordLen (t ++ [toLowerByte c]), []) := by
  simp only [process_char, hc, if_true, hlt]

theorem process_char_delim (cfg : EngineConfig) (t : List Nat) (d : Nat)
    (hna : cfg.charsets.allowed (toLowerByte d) = false)
    (hd : cfg.charsets.delimiters (toLowerByte d) = true) :
    process_char cfg t d =
      if t ≠ [] ∧ t ∈ cfg.keywords then ([], [⟨t, toLowerByte d⟩])
      else ([], []) := by
  simp only [process_char, hna, hd, if_true, Bool.false_eq_true, if_false]
  by_cases h : t ≠ [] ∧ t ∈ cfg.keywords
  · have h0 : t.length ≠ 0 := by
      intro hc
      exact h.1 (List.eq_nil_of_length_eq_zero hc)
    have hf : keyword_found cfg.keywords t = true := (keyword_found_iff _ _).2 h
    simp [h0, hf, h]
  · simp only [if_neg h]
    by_cases h0 : t.length = 0
    · simp [h0]
    · have hf : keyword_found cfg.keywords t = false := by
        rw [Bool.eq_false_iff]
        intro hc
        exact h ((keyword_found_iff _ _).1 hc)
      simp [h0, hf]

theorem process_char_other (cfg : EngineConfig) (t : List Nat) (c : Nat)
    (hna : cfg.charsets.allowed (toLowerByte c) = false)
    (hnd : cfg.charsets.delimiters (toLowerByte c) = false) :
    process_char cfg t c = ([], []) := by
  simp [process_char, hna, hnd]

/-- Each step grows the buffer by at most one byte. -/
theorem process_char_fst_length_le (cfg : EngineConfig) (t : List Nat) (c : Nat) :
    (process_char cfg t c).1.length ≤ t.length + 1 := by
  unfold process_char
  by_cases hA : cfg.charsets.allowed (toLowerByte c) = true
  · simp only [hA, if_true]
    by_cases hF : keyword_found cfg.keywords
        (trim_token_to_max cfg.maxKeywordLen
          (if t.length < MAX_TOKEN_LEN then t ++ [toLowerByte c] else t)) = true
    · simp [hF]
    · simp only [hF, Bool.false_eq_true, if_false]
      refine le_trans (trim_length_le_self _ _) ?_
      split <;> simp
  · simp only [Bool.not_eq_true] at hA
    simp only [hA, Bool.false_eq_true, if_false]
    by_cases hD : cfg.charsets.delimiters (toLowerByte c) = true
    · simp only [hD, if_true]
      split <;> simp
    · simp only [Bool.not_eq_true] at hD
      simp [hD]

/-- Every event emitted by a step carries a keyword no longer than the
buffer plus the new byte. -/
theorem process_char_event_length_le (cfg : EngineConfig) (t : List Nat) (c : Nat) :
    ∀ e ∈ (process_char cfg t c).2, e.keyword.length ≤ t.length + 1 := by
  unfold process_char
  by_cases hA : cfg.charsets.allowed (toLowerByte c) = true
  · simp only [hA, if_true]
    by_cases hF : keyword_found cfg.keywords
        (trim_token_to_max cfg.maxKeywordLen
          (if t.length < MAX_TOKEN_LEN then t ++ [toLowerByte c] else t)) = true
    · simp only [hF, if_true]
      intro e he
      simp only [List.mem_singleton] at he
      subst he
      refine le_trans (trim_length_le_self _ _) ?_
      split <;> simp
    · simp [hF]
  · simp only [Bool.not_eq_true] at hA
    simp only [hA, Bool.false_eq_true, if_false]
    by_cases hD : cfg.charsets.delimiters (toLowerByte c) = true
    · simp only [hD, if_true]
      split
      · intro e he
        simp only [List.mem_singleton] at he
        subst he
        simp
      · simp
    · simp only [Bool.not_eq_true] at hD
      simp [hD]

/-! ### Lemmas about running a character sequence -/

theorem runChars_nil (cfg : EngineConfig) (t : List Nat) :
    runChars cfg t [] = (t, []) := rfl

/-- The fold underlying `runChars` only ever appends to the event
accumulator. -/
theorem runChars_acc (cfg : EngineConfig) (cs : List Nat) (t : List Nat)
    (es : List Event) :
    cs.foldl (fun acc c =>
      let r := process_char cfg acc.1 c
      (r.1, acc.2 ++ r.2)) (t, es) =
    ((runChars cfg t cs).1, es ++ (runChars cfg t cs).2) := by
  induction cs generalizing t es with
  | nil => simp [runChars]
  | cons c cs ih =>
    simp only [runChars, List.foldl_cons]
    rw [ih, ih]
    simp

theorem runChars_cons (cfg : EngineConfig) (t : List Nat) (c : Nat) (cs : List Nat) :
    runChars cfg t (c :: cs) =
      ((runChars cfg (process_char cfg t c).1 cs).1,
        (process_char cfg t c).2 ++ (runChars cfg (process_char cfg t c).1 cs).2) := by
  simp only [runChars, List.foldl_cons]
  exact runChars_acc cfg cs _ _

theorem runChars_append (cfg : EngineConfig) (t : List Nat) (a b : List Nat) :
    runChars cfg t (a ++ b) =
      ((runChars cfg (runChars cfg t a).1 b).1,
        (runChars cfg t a).2 ++ (runChars cfg (runChars cfg t a).1 b).2) := by
  simp only [runChars, List.foldl_append]
  have h : runChars cfg t a =
      ((runChars cfg t a).1, (runChars cfg t a).2) := rfl
  conv_lhs => rw [show a.foldl (fun acc c =>
      let r := process_char cfg acc.1 c
      (r.1, acc.2 ++ r.2)) (t, ([] : List Event)) = runChars cfg t a from rfl, h]
  exact runChars_acc cfg b _ _

/-- Buffer-length bound for a whole run: each step adds at most one byte. -/
theorem runChars_fst_length_le (cfg : EngineConfig) (cs : List Nat) (t : List Nat) :
    (runChars cfg t cs).1.length ≤ t.length + cs.length := by
  induction cs generalizing t with
  | nil => simp [runChars_nil]
  | cons c cs ih =>
    rw [runChars_cons]
    calc (runChars cfg (process_char cfg t c).1 cs).1.length
        ≤ (process_char cfg t c).1.length + cs.length := ih _
      _ ≤ (t.length + 1) + cs.length := by
          have := process_char_fst_length_le cfg t c
          omega
      _ = t.length + (c :: cs).length := by simp; omega

/-- Every event emitted during a run carries a keyword bounded by the
initial buffer length plus the number of characters processed. -/
theorem runChars_event_length_le (cfg : EngineConfig) (cs : List Nat) (t : List Nat) :
    ∀ e ∈ (runChars cfg t cs).2, e.keyword.length ≤ t.length + cs.length := by
  induction cs generalizing t with
  | nil => simp [runChars_nil]
  | cons c cs ih =>
    rw [runChars_cons]
    intro e he
    rw [List.mem_append] at he
    rcases he with he | he
    · have := process_char_event_length_le cfg t c e he
      simp only [List.length_cons]
      omega
    · have h1 := ih (process_char cfg t c).1 e he
      have h2 := process_char_fst_length_le cfg t c
      simp only [List.length_cons]
      omega

/-- Feeding a list of token characters whose proper non-empty prefixes
are not keywords, with all lengths within bounds: the run accumulates
the list unchanged, then matches exactly when the whole list is a
keyword. -/
theorem runChars_no_prefix (cfg : EngineConfig)
    (h2 : cfg.maxKeywordLen ≤ MAX_KEYWORD_LEN)
    (l : List Nat)
    (hlen : l.length ≤ cfg.maxKeywordLen)
    (hall : ∀ c ∈ l, cfg.charsets.allowed c = true)
    (hfix : ∀ c ∈ l, toLowerByte c = c)
    (hpre : ∀ i, 0 < i → i < l.length → l.take i ∉ cfg.keywords) :
    runChars cfg [] l =
      (if keyword_found cfg.keywords l then [] else l,
       if keyword_found cfg.keywords l then [⟨l, 0⟩] else []) := by
  induction l using List.reverseRecOn with
  | nil => simp [runChars_nil, keyword_found_nil]
  | append_singleton l x ih =>
    have hlen' : l.length ≤ cfg.maxKeywordLen := by
      simp at hlen; omega
    have hall' : ∀ c ∈ l, cfg.charsets.allowed c = true := by
      intro c hc; exact hall c (List.mem_append_left _ hc)
    have hfix' : ∀ c ∈ l, toLowerByte c = c := by
      intro c hc; exact hfix c (List.mem_append_left _ hc)
    have hpre' : ∀ i, 0 < i → i < l.length → l.take i ∉ cfg.keywords := by
      intro i hi hil hmem
      have hi2 : i < (l ++ [x]).length := by simp; omega
      have : (l ++ [x]).take i = l.take i := by
        rw [List.take_append_of_le_length (by omega)]
      exact hpre i hi hi2 (by rw [this]; exact hmem)
    have hrun := ih hlen' hall' hfix' hpre'
    have hnotfound : keyword_found cfg.keywords l = false := by
      rcases List.eq_nil_or_concat l with hnil | ⟨l', x', hconcat⟩
      · subst hnil; exact keyword_found_nil _
      · rw [List.concat_eq_append] at hconcat
        subst hconcat
        rw [Bool.eq_false_iff]
        intro hf
        rcases (keyword_found_iff _ _).1 hf with ⟨_, hmem⟩
        have hlt : (l' ++ [x']).length < (l' ++ [x'] ++ [x]).length := by simp
        have htk : (l' ++ [x'] ++ [x]).take (l' ++ [x']).length = l' ++ [x'] := by
          rw [List.take_append_of_le_length (le_refl _)]
          simp
        exact hpre (l' ++ [x']).length (by simp) hlt (by rw [htk]; exact hmem)
    rw [hnotfound] at hrun
    simp only [Bool.false_eq_true, if_false] at hrun
    rw [runChars_append, hrun]
    have hx : cfg.charsets.allowed (toLowerByte x) = true := by
      rw [hfix x (List.mem_append_right _ (List.mem_singleton_self x))]
      exact hall x (List.mem_append_right _ (List.mem_singleton_self x))
    have hlt512 : l.length < MAX_TOKEN_LEN := by
      have : MAX_KEYWORD_LEN < MAX_TOKEN_LEN := by decide
      simp at hlen
      omega
    have hstep := process_char_token cfg l x hx hlt512
    rw [hfix x (List.mem_append_right _ (List.mem_singleton_self x))] at hstep
    rw [trim_of_le _ _ hlen] at hstep
    rw [runChars_cons, hstep]
    by_cases hF : keyword_found cfg.keywords (l ++ [x]) = true
    · simp [hF, runChars_nil]
    · rw [Bool.not_eq_true] at hF
      simp [hF, runChars_nil]

/-- If a run of token-classified characters has produced no match, the
buffer is exactly the lower-cased run trimmed to the maximum keyword
length. -/
theorem runChars_no_match_buffer (cfg : EngineConfig)
    (h1 : 1 ≤ cfg.maxKeywordLen) (h2 : cfg.maxKeywordLen ≤ MAX_KEYWORD_LEN)
    (cs : List Nat)
    (hall : ∀ c ∈ cs, cfg.charsets.allowed (toLowerByte c) = true)
    (hnm : (runChars cfg [] cs).2 = []) :
    (runChars cfg [] cs).1 =
      trim_token_to_max cfg.maxKeywordLen (cs.map toLowerByte) := by
  induction cs using List.reverseRecOn with
  | nil => simp [runChars_nil, trim_token_to_max]
  | append_singleton cs c ih =>
    have hall' : ∀ x ∈ cs, cfg.charsets.allowed (toLowerByte x) = true := by
      intro x hx; exact hall x (List.mem_append_left _ hx)
    rw [runChars_append] at hnm ⊢
    have hnm1 : (runChars cfg [] cs).2 = [] := by
      rcases List.append_eq_nil.1 hnm with ⟨ha, _⟩
      exact ha
    have hnm2 : (runChars cfg (runChars cfg [] cs).1 [c]).2 = [] := by
      rcases List.append_eq_nil.1 hnm with ⟨_, hb⟩
      exact hb
    have hbuf := ih hall' hnm1
    have hc : cfg.charsets.allowed (toLowerByte c) = true :=
      hall c (List.mem_append_right _ (List.mem_singleton_self c))
    have hblen : (runChars cfg [] cs).1.length < MAX_TOKEN_LEN := by
      rw [hbuf]
      have := trim_length_le cfg.maxKeywordLen (cs.map toLowerByte)
      have : cfg.maxKeywordLen ≤ MAX_KEYWORD_LEN := h2
      have hlt : MAX_KEYWORD_LEN < MAX_TOKEN_LEN := by decide
      have := trim_length_le cfg.maxKeywordLen (cs.map toLowerByte)
      omega
    have hstep := process_char_token cfg (runChars cfg [] cs).1 c hc hblen
    rw [runChars_cons, runChars_nil] at hnm2 ⊢
    by_cases hF : keyword_found cfg.keywords
        (trim_token_to_max cfg.maxKeywordLen
          ((runChars cfg [] cs).1 ++ [toLowerByte c])) = true
    · rw [hstep] at hnm2
      simp [hF] at hnm2
    · rw [Bool.not_eq_true] at hF
      rw [hstep]
      simp only [hF, Bool.false_eq_true, if_false]
      rw [hbuf, trim_append_trim _ h1]
      simp

/-! ### Lemmas about running key events -/

theorem runKeys_nil (cfg : EngineConfig) (t : List Nat) :
    runKeys cfg t [] = (t, []) := rfl

theorem runKeys_acc (cfg : EngineConfig) (ks : List KeyInput) (t : List Nat)
    (es : List Event) :
    ks.foldl (fun acc k =>
      let r := process_key_event cfg acc.1 k
      (r.1, acc.2 ++ r.2)) (t, es) =
    ((runKeys cfg t ks).1, es ++ (runKeys cfg t ks).2) := by
  induction ks generalizing t es with
  | nil => simp [runKeys]
  | cons k ks ih =>
    simp only [runKeys, List.foldl_cons]
    rw [ih, ih]
    simp

theorem runKeys_cons (cfg : EngineConfig) (t : List Nat) (k : KeyInput)
    (ks : List KeyInput) :
    runKeys cfg t (k :: ks) =
      ((runKeys cfg (process_key_event cfg t k).1 ks).1,
        (process_key_event cfg t k).2 ++
          (runKeys cfg (process_key_event cfg t k).1 ks).2) := by
  simp only [runKeys, List.foldl_cons]
  exact runKeys_acc cfg ks _ _

theorem runKeys_append (cfg : EngineConfig) (t : List Nat) (a b : List KeyInput) :
    runKeys cfg t (a ++ b) =
      ((runKeys cfg (runKeys cfg t a).1 b).1,
        (runKeys cfg t a).2 ++ (runKeys cfg (runKeys cfg t a).1 b).2) := by
  simp only [runKeys, List.foldl_append]
  have h : runKeys cfg t a = ((runKeys cfg t a).1, (runKeys cfg t a).2) := rfl
  conv_lhs => rw [show a.foldl (fun acc k =>
      let r := process_key_event cfg acc.1 k
      (r.1, acc.2 ++ r.2)) (t, ([] : List Event)) = runKeys cfg t a from rfl, h]
  exact runKeys_acc cfg b _ _

/-- A modifier-free key event decoding to a single in-range unit behaves
exactly like `process_char` on that unit. -/
theorem process_key_event_unit (cfg : EngineConfig) (t : List Nat) (c : Nat)
    (h0 : c ≠ 0) (h127 : c ≤ 127) :
    process_key_event cfg t (.key false (.units [c])) = process_char cfg t c := by
  simp only [process_key_event, Bool.false_eq_true, if_false, List.foldl_cons,
    List.foldl_nil]
  have hc : (decide (c = 0) || decide (127 < c)) = false := by
    simp
    omega
  simp [hc]

/-- Feeding single-unit key events for a list of in-range characters is
the same as feeding the characters directly. -/
theorem runKeys_map_units (cfg : EngineConfig) (l : List Nat) (t : List Nat)
    (hrange : ∀ c ∈ l, c ≠ 0 ∧ c ≤ 127) :
    runKeys cfg t (l.map fun c => .key false (.units [c])) = runChars cfg t l := by
  induction l generalizing t with
  | nil => rfl
  | cons c l ih =>
    have hc := hrange c (List.mem_cons_self c l)
    rw [List.map_cons, runKeys_cons, runChars_cons,
      process_key_event_unit cfg t c hc.1 hc.2,
      ih _ (fun x hx => hrange x (List.mem_cons_of_mem c hx))]

/-! ### Lemmas about the classifier widening pass -/

/-- A byte value is widened by the pass exactly when some registered
keyword contains a byte that lower-cases to it and is not whitespace. -/
def widenedByte (kws : List (List Nat)) (c : Nat) : Bool :=
  kws.any fun kw => kw.any fun b =>
    decide (toLowerByte b = c) && !isKeywordWhitespace (toLowerByte b)

theorem foldl_applyByte_allowed (kw : List Nat) (cs : Charsets) (c : Nat) :
    (kw.foldl applyKeywordByte cs).allowed c =
      (cs.allowed c ||
        kw.any fun b => decide (toLowerByte b = c) &&
          !isKeywordWhitespace (toLowerByte b)) := by
  induction kw generalizing cs with
  | nil => simp
  | cons b kw ih =>
    rw [List.foldl_cons, ih]
    simp only [List.any_cons]
    unfold applyKeywordByte
    by_cases hws : isKeywordWhitespace (toLowerByte b) = true
    · simp [hws]
    · rw [Bool.not_eq_true] at hws
      simp only [hws, Bool.false_eq_true, if_false, Bool.not_false, Bool.and_true]
      by_cases hc : c = toLowerByte b
      · subst hc
        simp
      · have : ¬(toLowerByte b = c) := fun h => hc h.symm
        simp [hc, this]

theorem foldl_applyByte_delimiters (kw : List Nat) (cs : Charsets) (c : Nat) :
    (kw.foldl applyKeywordByte cs).delimiters c =
      (cs.delimiters c &&
        !(kw.any fun b => decide (toLowerByte b = c) &&
          !isKeywordWhitespace (toLowerByte b))) := by
  induction kw generalizing cs with
  | nil => simp
  | cons b kw ih =>
    rw [List.foldl_cons, ih]
    simp only [List.any_cons]
    unfold applyKeywordByte
    by_cases hws : isKeywordWhitespace (toLowerByte b) = true
    · simp [hws]
    · rw [Bool.not_eq_true] at hws
      simp only [hws, Bool.false_eq_true, if_false, Bool.not_false, Bool.and_true]
      by_cases hc : c = toLowerByte b
      · subst hc
        simp
      · have : ¬(toLowerByte b = c) := fun h => hc h.symm
        simp [hc, this, Bool.and_comm]

theorem apply_charsets_allowed (kws : List (List Nat)) (cs : Charsets) (c : Nat) :
    (apply_keyword_chars_to_charsets cs kws).allowed c =
      (cs.allowed c || widenedByte kws c) := by
  induction kws generalizing cs with
  | nil => simp [apply_keyword_chars_to_charsets, widenedByte]
  | cons kw kws ih =>
    unfold apply_keyword_chars_to_charsets at ih ⊢
    rw [List.foldl_cons, ih, foldl_applyByte_allowed]
    simp [widenedByte, Bool.or_assoc]

theorem apply_charsets_delimiters (kws : List (List Nat)) (cs : Charsets) (c : Nat) :
    (apply_keyword_chars_to_charsets cs kws).delimiters c =
      (cs.delimiters c && !widenedByte kws c) := by
  induction kws generalizing cs with
  | nil => simp [apply_keyword_chars_to_charsets, widenedByte]
  | cons kw kws ih =>
    unfold apply_keyword_chars_to_charsets at ih ⊢
    rw [List.foldl_cons, ih, foldl_applyByte_delimiters]
    simp only [widenedByte, List.any_cons, Bool.not_or, Bool.and_assoc]

/-- No byte of the default delimiter set is a default token character. -/
theorem seed_delim_not_allowed :
    ∀ c ∈ defaultDelimiterBytes, seed_charsets.allowed c = false := by
  decide

/-- The seeded tables are disjoint. -/
theorem seed_disjoint (c : Nat) :
    ¬(seed_charsets.allowed c = true ∧ seed_charsets.delimiters c = true) := by
  rintro ⟨ha, hd⟩
  have hmem : c ∈ defaultDelimiterBytes := by
    have : decide (c ∈ defaultDelimiterBytes) = true := hd
    exact of_decide_eq_true this
  rw [seed_delim_not_allowed c hmem] at ha
  exact Bool.false_ne_true ha

/-- A widened byte is never keyword whitespace. -/
theorem widenedByte_not_ws (kws : List (List Nat)) (c : Nat)
    (h : widenedByte kws c = true) : isKeywordWhitespace c = false := by
  unfold widenedByte at h
  rw [List.any_eq_true] at h
  rcases h with ⟨kw, _, hkw⟩
  rw [List.any_eq_true] at hkw
  rcases hkw with ⟨b, _, hb⟩
  rw [Bool.and_eq_true] at hb
  rcases hb with ⟨heq, hws⟩
  have heq2 : toLowerByte b = c := of_decide_eq_true heq
  rw [heq2] at hws
  rw [Bool.not_eq_true'] at hws
  exact hws

/-! ### Concrete startup configurations used in witnesses and
counterexamples -/

/-- The engine configuration `main` reaches after registering keywords
and running `seed_charsets` followed by the widening pass. -/
def mkConfig (r : Registry) : EngineConfig :=
  ⟨r.keywords, r.maxKeywordLen, apply_keyword_chars_to_charsets seed_charsets r.keywords⟩

/-- Registry with the single keyword "sig". -/
def regSig : Registry := (append_keyword initRegistry [115, 105, 103]).1

def cfgSig : EngineConfig := mkConfig regSig

/-- Registry with the single keyword "aa". -/
def regAA : Registry := (append_keyword initRegistry [97, 97]).1

def cfgAA : EngineConfig := mkConfig regAA

/-- Registry with the keywords "a" and "aa". -/
def regAandAA : Registry :=
  (append_keyword (append_keyword initRegistry [97]).1 [97, 97]).1

def cfgAandAA : EngineConfig := mkConfig regAandAA

/-- Registry with the keywords "a", "ab" and "abc". -/
def regABC : Registry :=
  (append_keyword (append_keyword (append_keyword initRegistry [97]).1
    [97, 98]).1 [97, 98, 99]).1

def cfgABC : EngineConfig := mkConfig regABC

/-- Registry with the keywords "sig" and "sigx". -/
def regSig2 : Registry :=
  (append_keyword (append_keyword initRegistry [115, 105, 103]).1
    [115, 105, 103, 120]).1

def cfgSig2 : EngineConfig := mkConfig regSig2

/-- Generator of pairwise distinct two-letter lowercase keywords. -/
def kwGen (i : Nat) : List Nat := [97 + i / 26, 97 + i % 26]

/-- A registry holding 511 distinct keywords. -/
def r511 : Registry := ⟨(List.range 511).map kwGen, 2⟩

/-- The keyword "xxx", not among the `kwGen` keywords. -/
def kX : List Nat := [120, 120, 120]

/-- A registry at full capacity: 512 distinct keywords. -/
def rFull : Registry := ⟨(List.range MAX_KEYWORDS).map kwGen, 2⟩

/-- The bytes of the payload `["sig"]`. -/
def jsonSig : List Nat := [91, 34, 115, 105, 103, 34, 93]

/-! ### Claim C1 -/

/-- C1 counterexample: with the registered keyword set {"aa"} and input
"aaa", at the third character the most recent run of token characters
trimmed to the longest keyword length is "aa", which is a registered
keyword, yet the engine emits no match event there (the buffer was
cleared by the match at the second character), so the claimed
if-and-only-if fails at this position. -/
theorem C1_counterexample :
    trim_token_to_max cfgAA.maxKeywordLen ([97, 97, 97].map toLowerByte)
      ∈ cfgAA.keywords
    ∧ (process_char cfgAA (runChars cfgAA [] [97, 97]).1 97).2 = []
    ∧ (runChars cfgAA [] [97, 97, 97]).2 = [⟨[97, 97], 0⟩] := by
  refine ⟨by decide, by decide, by decide⟩

/-- C1 (amended): for every keyword set and any sequence of
token-classified characters fed from an empty buffer DURING WHICH NO
MATCH HAS FIRED, the buffer equals the run trimmed to the longest
keyword length, and a match fires at the next token character if and
only if the trimmed run extended by that character equals a registered
keyword. -/
theorem C1_match_iff_trimmed_run (cfg : EngineConfig)
    (h1 : 1 ≤ cfg.maxKeywordLen) (h2 : cfg.maxKeywordLen ≤ MAX_KEYWORD_LEN)
    (cs : List Nat) (c : Nat)
    (hall : ∀ x ∈ cs, cfg.charsets.allowed (toLowerByte x) = true)
    (hc : cfg.charsets.allowed (toLowerByte c) = true)
    (hnm : (runChars cfg [] cs).2 = []) :
    (runChars cfg [] cs).1 =
      trim_token_to_max cfg.maxKeywordLen (cs.map toLowerByte)
    ∧ ((process_char cfg (runChars cfg [] cs).1 c).2 ≠ [] ↔
        trim_token_to_max cfg.maxKeywordLen ((cs ++ [c]).map toLowerByte)
          ∈ cfg.keywords) := by
  have hbuf := runChars_no_match_buffer cfg h1 h2 cs hall hnm
  refine ⟨hbuf, ?_⟩
  have hblen : (runChars cfg [] cs).1.length < MAX_TOKEN_LEN := by
    rw [hbuf]
    have hle := trim_length_le cfg.maxKeywordLen (cs.map toLowerByte)
    have hlt : MAX_KEYWORD_LEN < MAX_TOKEN_LEN := by decide
    omega
  have hstep := process_char_token cfg (runChars cfg [] cs).1 c hc hblen
  rw [hstep, hbuf, trim_append_trim _ h1]
  have hmap : (cs ++ [c]).map toLowerByte =
      cs.map toLowerByte ++ [toLowerByte c] := by simp
  rw [hmap]
  set X := trim_token_to_max cfg.maxKeywordLen
    (cs.map toLowerByte ++ [toLowerByte c]) with hX
  have hXne : X ≠ [] := by
    have hlen : X.length = min (cs.map toLowerByte ++ [toLowerByte c]).length
        cfg.maxKeywordLen := trim_length _ _
    have hpos : 0 < X.length := by
      rw [hlen]
      simp only [List.length_append, List.length_singleton]
      omega
    exact List.ne_nil_of_length_pos hpos
  by_cases hF : keyword_found cfg.keywords X = true
  · simp only [hF, if_true]
    constructor
    · intro _
      exact ((keyword_found_iff _ _).1 hF).2
    · intro _
      simp
  · rw [Bool.not_eq_true] at hF
    simp only [hF, Bool.false_eq_true, if_false]
    constructor
    · intro h
      exact absurd rfl h
    · intro hmem
      have : keyword_found cfg.keywords X = true :=
        (keyword_found_iff _ _).2 ⟨hXne, hmem⟩
      rw [this] at hF
      exact absurd hF (by simp)

/-- C1 witness: the amended statement evaluated for keyword set {"sig"}
after typing "si", with next character 'g'. -/
theorem C1_witness :
    (runChars cfgSig [] [115, 105]).1 =
      trim_token_to_max cfgSig.maxKeywordLen ([115, 105].map toLowerByte)
    ∧ ((process_char cfgSig (runChars cfgSig [] [115, 105]).1 103).2 ≠ [] ↔
        trim_token_to_max cfgSig.maxKeywordLen
          (([115, 105] ++ [103]).map toLowerByte) ∈ cfgSig.keywords) :=
  C1_match_iff_trimmed_run cfgSig (by decide) (by decide) [115, 105] 103
    (by decide) (by decide) (by decide)

/-! ### Claim C2 -/

/-- C2 counterexample: with registered keywords {"a", "aa"} and
k = "aa", typing k, then one backspace, then the final character of k
again produces three match events, not exactly one: the partial buffer
"a" matches prematurely and the retyped final character matches again. -/
theorem C2_counterexample :
    [97, 97] ∈ cfgAandAA.keywords
    ∧ (runKeys cfgAandAA [] [.key false (.units [97]), .key false (.units [97]),
        .backspace, .key false (.units [97])]).2.length = 3
    ∧ ¬((runKeys cfgAandAA [] [.key false (.units [97]), .key false (.units [97]),
        .backspace, .key false (.units [97])]).2.length = 1) := by
  refine ⟨by decide, by decide, by decide⟩

/-- C2 (amended): for a registered keyword k none of whose proper
non-empty prefixes is registered and whose final character alone is not
a registered keyword, typing k, then one backspace, then the final
character of k again produces exactly one match event (fired when the
last character of k is first typed). -/
theorem C2_backspace_single_match (cfg : EngineConfig) (ks : List Nat) (x : Nat)
    (h1 : 1 ≤ cfg.maxKeywordLen) (h2 : cfg.maxKeywordLen ≤ MAX_KEYWORD_LEN)
    (hk : ks ++ [x] ∈ cfg.keywords)
    (hlen : (ks ++ [x]).length ≤ cfg.maxKeywordLen)
    (hall : ∀ c ∈ ks ++ [x], cfg.charsets.allowed c = true)
    (hfix : ∀ c ∈ ks ++ [x], toLowerByte c = c)
    (hrange : ∀ c ∈ ks ++ [x], c ≠ 0 ∧ c ≤ 127)
    (hpre : ∀ i, 0 < i → i < (ks ++ [x]).length →
      (ks ++ [x]).take i ∉ cfg.keywords)
    (hlast : [x] ∉ cfg.keywords) :
    (runKeys cfg [] (((ks ++ [x]).map fun c => .key false (.units [c])) ++
      [.backspace, .key false (.units [x])])).2 = [⟨ks ++ [x], 0⟩] := by
  have hxmem : x ∈ ks ++ [x] :=
    List.mem_append_right _ (List.mem_singleton_self x)
  have hxr := hrange x hxmem
  rw [runKeys_append, runKeys_map_units cfg (ks ++ [x]) [] hrange]
  have hfound : keyword_found cfg.keywords (ks ++ [x]) = true :=
    (keyword_found_iff _ _).2 ⟨by simp, hk⟩
  have hrun := runChars_no_prefix cfg h2 (ks ++ [x]) hlen hall hfix hpre
  rw [hfound] at hrun
  simp only [if_true] at hrun
  rw [hrun]
  rw [runKeys_cons]
  have hback : process_key_event cfg [] KeyInput.backspace = ([], []) := rfl
  rw [hback]
  rw [runKeys_cons, process_key_event_unit cfg [] x hxr.1 hxr.2]
  have hxa : cfg.charsets.allowed (toLowerByte x) = true := by
    rw [hfix x hxmem]
    exact hall x hxmem
  have hstep := process_char_token cfg [] x hxa (by decide)
  rw [hfix x hxmem] at hstep
  have htrim : trim_token_to_max cfg.maxKeywordLen ([] ++ [x]) = [x] := by
    apply trim_of_le
    simp
    omega
  rw [htrim] at hstep
  have hnf : keyword_found cfg.keywords [x] = false := by
    rw [Bool.eq_false_iff]
    intro hf
    exact hlast ((keyword_found_iff _ _).1 hf).2
  rw [hnf] at hstep
  simp only [Bool.false_eq_true, if_false] at hstep
  rw [hstep, runKeys_nil]
  simp

/-- C2 witness: the amended statement evaluated for keyword set {"sig"}
with k = "sig": typing s i g, backspace, g yields exactly the single
match event for "sig". -/
theorem C2_witness :
    (runKeys cfgSig [] ((([115, 105] ++ [103]).map
        fun c => KeyInput.key false (DecodeOutcome.units [c])) ++
      [.backspace, .key false (.units [103])])).2 =
      [⟨[115, 105] ++ [103], 0⟩] :=
  C2_backspace_single_match cfgSig [115, 105] 103 (by decide) (by decide)
    (by decide) (by decide) (by decide) (by decide) (by decide)
    (by intro i hi hilt
        simp only [List.length_append, List.length_cons, List.length_nil,
          List.length_singleton] at hilt
        interval_cases i <;> decide)
    (by decide)

/-! ### Claim C3 -/

/-- C3: processing a token character from any buffer satisfying the
engine invariant (length at most `maxKeywordLen`, which is at most
`MAX_KEYWORD_LEN`) leaves a buffer of at most `maxKeywordLen` bytes;
the appended-and-trimmed buffer used for matching keeps exactly the
most recent `maxKeywordLen` bytes (oldest dropped) whenever the append
would exceed the bound, and is unchanged otherwise. -/
theorem C3_buffer_bound (cfg : EngineConfig) (t : List Nat) (c : Nat)
    (h2 : cfg.maxKeywordLen ≤ MAX_KEYWORD_LEN)
    (ht : t.length ≤ cfg.maxKeywordLen)
    (hc : cfg.charsets.allowed (toLowerByte c) = true) :
    (process_char cfg t c).1.length ≤ cfg.maxKeywordLen
    ∧ process_char cfg t c =
        (if keyword_found cfg.keywords
            (trim_token_to_max cfg.maxKeywordLen (t ++ [toLowerByte c])) then
          ([], [⟨trim_token_to_max cfg.maxKeywordLen (t ++ [toLowerByte c]), 0⟩])
        else (trim_token_to_max cfg.maxKeywordLen (t ++ [toLowerByte c]), []))
    ∧ (cfg.maxKeywordLen < (t ++ [toLowerByte c]).length →
        (trim_token_to_max cfg.maxKeywordLen (t ++ [toLowerByte c])).length =
            cfg.maxKeywordLen
        ∧ trim_token_to_max cfg.maxKeywordLen (t ++ [toLowerByte c]) =
            (t ++ [toLowerByte c]).drop
              ((t ++ [toLowerByte c]).length - cfg.maxKeywordLen))
    ∧ ((t ++ [toLowerByte c]).length ≤ cfg.maxKeywordLen →
        trim_token_to_max cfg.maxKeywordLen (t ++ [toLowerByte c]) =
          t ++ [toLowerByte c]) := by
  have hlt : t.length < MAX_TOKEN_LEN := by
    have : MAX_KEYWORD_LEN < MAX_TOKEN_LEN := by decide
    omega
  have hstep := process_char_token cfg t c hc hlt
  refine ⟨?_, hstep, ?_, ?_⟩
  · rw [hstep]
    by_cases hF : keyword_found cfg.keywords
        (trim_token_to_max cfg.maxKeywordLen (t ++ [toLowerByte c])) = true
    · simp [hF]
    · rw [Bool.not_eq_true] at hF
      simp only [hF, Bool.false_eq_true, if_false]
      exact trim_length_le _ _
  · intro hgt
    constructor
    · rw [trim_length]
      omega
    · exact trim_eq_drop _ _
  · intro hle
    exact trim_of_le _ _ hle

/-- C3 witness: keyword set {"sig"} (`maxKeywordLen` = 3), buffer "sig"
already at the bound, next token character 'x': the append would exceed
the bound and exactly the most recent three bytes "igx" are kept. -/
theorem C3_witness :
    (process_char cfgSig [115, 105, 103] 120).1.length ≤ cfgSig.maxKeywordLen
    ∧ process_char cfgSig [115, 105, 103] 120 =
        (if keyword_found cfgSig.keywords
            (trim_token_to_max cfgSig.maxKeywordLen
              ([115, 105, 103] ++ [toLowerByte 120])) then
          ([], [⟨trim_token_to_max cfgSig.maxKeywordLen
            ([115, 105, 103] ++ [toLowerByte 120]), 0⟩])
        else (trim_token_to_max cfgSig.maxKeywordLen
            ([115, 105, 103] ++ [toLowerByte 120]), []))
    ∧ (cfgSig.maxKeywordLen < ([115, 105, 103] ++ [toLowerByte 120]).length →
        (trim_token_to_max cfgSig.maxKeywordLen
            ([115, 105, 103] ++ [toLowerByte 120])).length = cfgSig.maxKeywordLen
        ∧ trim_token_to_max cfgSig.maxKeywordLen
            ([115, 105, 103] ++ [toLowerByte 120]) =
            ([115, 105, 103] ++ [toLowerByte 120]).drop
              (([115, 105, 103] ++ [toLowerByte 120]).length - cfgSig.maxKeywordLen))
    ∧ (([115, 105, 103] ++ [toLowerByte 120]).length ≤ cfgSig.maxKeywordLen →
        trim_token_to_max cfgSig.maxKeywordLen
            ([115, 105, 103] ++ [toLowerByte 120]) =
          [115, 105, 103] ++ [toLowerByte 120]) :=
  C3_buffer_bound cfgSig [115, 105, 103] 120 (by decide) (by decide) (by decide)

/-! ### Claim C4 -/

/-- C4: when a delimiter character is processed, an event carrying the
delimiter and the buffer content is emitted exactly when the buffer is
non-empty and equals a registered keyword, and the buffer is empty
afterwards in every case. -/
theorem C4_delimiter_match (cfg : EngineConfig) (t : List Nat) (d : Nat)
    (hd : cfg.charsets.delimiters d = true)
    (hna : cfg.charsets.allowed d = false)
    (hfix : toLowerByte d = d) :
    (process_char cfg t d).1 = []
    ∧ (process_char cfg t d).2 =
        (if t ≠ [] ∧ t ∈ cfg.keywords then [⟨t, d⟩] else []) := by
  have hna' : cfg.charsets.allowed (toLowerByte d) = false := by
    rw [hfix]; exact hna
  have hd' : cfg.charsets.delimiters (toLowerByte d) = true := by
    rw [hfix]; exact hd
  have h := process_char_delim cfg t d hna' hd'
  rw [hfix] at h
  rw [h]
  by_cases hcase : t ≠ [] ∧ t ∈ cfg.keywords
  · simp [hcase]
  · simp [hcase]

/-- C4 witness: keyword set {"sig"}, buffer "sig", delimiter space:
exactly one event carrying the space is emitted and the buffer is
cleared. -/
theorem C4_witness :
    (process_char cfgSig [115, 105, 103] 32).1 = []
    ∧ (process_char cfgSig [115, 105, 103] 32).2 =
        (if [115, 105, 103] ≠ [] ∧ [115, 105, 103] ∈ cfgSig.keywords then
          [⟨[115, 105, 103], 32⟩] else []) :=
  C4_delimiter_match cfgSig [115, 105, 103] 32 (by decide) (by decide)
    (by decide)

/-! ### Claim C5 -/

set_option maxRecDepth 100000 in
/-- C5 counterexample: starting from a registry holding 511 keywords,
registering "xxx" succeeds and fills the registry; registering the very
same text a second time reports FAILURE (the capacity check precedes
the duplicate check), although the registry state is unchanged — so
"the second registration still reports success" is false in general. -/
theorem C5_counterexample :
    (append_keyword r511 kX).2 = true
    ∧ (append_keyword (append_keyword r511 kX).1 kX).2 = false
    ∧ (append_keyword (append_keyword r511 kX).1 kX).1 =
        (append_keyword r511 kX).1 := by
  refine ⟨by decide, by decide, by decide⟩

/-- C5 (amended): `register` lower-cases and truncates its input to 128
bytes and rejects an empty result; and provided the registry is below
its 512-keyword capacity after the first registration, registering the
same text twice succeeds both times and leaves exactly the state of
registering it once. -/
theorem C5_register_idempotent (r : Registry) (s : List Nat) (hs : s ≠ [])
    (hroom : (append_keyword r s).1.keywords.length < MAX_KEYWORDS) :
    (append_keyword r s).2 = true
    ∧ append_keyword (append_keyword r s).1 s = ((append_keyword r s).1, true)
    ∧ normalizeKeyword s ∈ (append_keyword r s).1.keywords
    ∧ ∀ r' : Registry, append_keyword r' [] = (r', false) := by
  have hempty : ∀ r' : Registry, append_keyword r' [] = (r', false) := by
    intro r'
    unfold append_keyword
    split
    · rfl
    · simp [normalizeKeyword]
  have hbuflen : (normalizeKeyword s).length ≠ 0 := by
    unfold normalizeKeyword
    rcases s with _ | ⟨b, s'⟩
    · exact absurd rfl hs
    · simp [MAX_KEYWORD_LEN]
  have hcap : ¬(MAX_KEYWORDS ≤ r.keywords.length) := by
    intro hle
    have : append_keyword r s = (r, false) := by
      unfold append_keyword
      simp [hle]
    rw [this] at hroom
    simp only at hroom
    omega
  by_cases hmem : normalizeKeyword s ∈ r.keywords
  · have h1 : append_keyword r s = (r, true) := by
      unfold append_keyword
      simp [hcap, hbuflen, hmem]
    rw [h1]
    exact ⟨rfl, h1, hmem, hempty⟩
  · have h1 : append_keyword r s =
        (⟨r.keywords ++ [normalizeKeyword s],
          max r.maxKeywordLen (normalizeKeyword s).length⟩, true) := by
      unfold append_keyword
      simp [hcap, hbuflen, hmem]
    rw [h1]
    have hmem2 : normalizeKeyword s ∈ r.keywords ++ [normalizeKeyword s] :=
      List.mem_append_right _ (List.mem_singleton_self _)
    have hroom' : r.keywords.length + 1 < MAX_KEYWORDS := by
      rw [h1] at hroom
      simpa using hroom
    have hcap2 : ¬(MAX_KEYWORDS ≤
        (r.keywords ++ [normalizeKeyword s]).length) := by
      simp only [List.length_append, List.length_singleton]
      omega
    have h2 : append_keyword
        (⟨r.keywords ++ [normalizeKeyword s],
          max r.maxKeywordLen (normalizeKeyword s).length⟩ : Registry) s =
        (⟨r.keywords ++ [normalizeKeyword s],
          max r.maxKeywordLen (normalizeKeyword s).length⟩, true) := by
      unfold append_keyword
      simp only [List.length_append, List.length_singleton]
      rw [if_neg (by omega : ¬(MAX_KEYWORDS ≤ r.keywords.length + 1))]
      simp [hbuflen, hmem2]
    exact ⟨rfl, h2, hmem2, hempty⟩

/-- C5 witness: registering "sig" twice in an empty registry succeeds
both times, stores the lower-cased truncated text once, and yields the
same state as registering it once. -/
theorem C5_witness :
    (append_keyword initRegistry [115, 105, 103]).2 = true
    ∧ append_keyword (append_keyword initRegistry [115, 105, 103]).1
        [115, 105, 103] =
        ((append_keyword initRegistry [115, 105, 103]).1, true)
    ∧ normalizeKeyword [115, 105, 103] ∈
        (append_keyword initRegistry [115, 105, 103]).1.keywords
    ∧ ∀ r' : Registry, append_keyword r' [] = (r', false) :=
  C5_register_idempotent initRegistry [115, 105, 103] (by decide) (by decide)

/-! ### Claim C6 -/

/-- C6: after seeding and widening over any registered keyword list, no
byte is both a token character and a delimiter; widening only ever adds
token characters (monotone on `isTokenChar`, antitone on
`isDelimiter`), every added byte comes from a non-whitespace keyword
byte, and every byte removed from the delimiter set was added to the
token set. -/
theorem C6_classifier_disjoint (kws : List (List Nat)) :
    (∀ c, ¬((apply_keyword_chars_to_charsets seed_charsets kws).allowed c = true
        ∧ (apply_keyword_chars_to_charsets seed_charsets kws).delimiters c = true))
    ∧ (∀ c, seed_charsets.allowed c = true →
        (apply_keyword_chars_to_charsets seed_charsets kws).allowed c = true)
    ∧ (∀ c, (apply_keyword_chars_to_charsets seed_charsets kws).delimiters c = true →
        seed_charsets.delimiters c = true)
    ∧ (∀ c, (apply_keyword_chars_to_charsets seed_charsets kws).allowed c = true →
        seed_charsets.allowed c = true ∨
          (widenedByte kws c = true ∧ isKeywordWhitespace c = false))
    ∧ (∀ c, seed_charsets.delimiters c = true →
        (apply_keyword_chars_to_charsets seed_charsets kws).delimiters c = false →
        (apply_keyword_chars_to_charsets seed_charsets kws).allowed c = true) := by
  refine ⟨?_, ?_, ?_, ?_, ?_⟩
  · rintro c ⟨ha, hd⟩
    rw [apply_charsets_allowed] at ha
    rw [apply_charsets_delimiters] at hd
    rw [Bool.and_eq_true, Bool.not_eq_true'] at hd
    rcases hd with ⟨hd1, hd2⟩
    rw [hd2, Bool.or_false] at ha
    exact seed_disjoint c ⟨ha, hd1⟩
  · intro c h
    rw [apply_charsets_allowed, h, Bool.true_or]
  · intro c h
    rw [apply_charsets_delimiters, Bool.and_eq_true] at h
    exact h.1
  · intro c h
    rw [apply_charsets_allowed, Bool.or_eq_true] at h
    rcases h with h | h
    · exact Or.inl h
    · exact Or.inr ⟨h, widenedByte_not_ws kws c h⟩
  · intro c hseed happ
    rw [apply_charsets_delimiters, hseed, Bool.true_and,
      Bool.not_eq_false'] at happ
    rw [apply_charsets_allowed, happ, Bool.or_true]

/-- C6 witness: for the keyword list [".bc"] the default delimiter '.'
is widened into the token set and out of the delimiter set, and the
tables stay disjoint at that byte. -/
theorem C6_witness :
    ¬((apply_keyword_chars_to_charsets seed_charsets [[46, 98, 99]]).allowed 46 = true
      ∧ (apply_keyword_chars_to_charsets seed_charsets [[46, 98, 99]]).delimiters 46 = true)
    ∧ (apply_keyword_chars_to_charsets seed_charsets [[46, 98, 99]]).allowed 46 = true :=
  ⟨(C6_classifier_disjoint [[46, 98, 99]]).1 46,
    (C6_classifier_disjoint [[46, 98, 99]]).2.2.2.2 46 (by decide) (by decide)⟩

/-! ### Claim C7 -/

/-- C7: a non-backspace key-down with a tracked modifier held clears the
in-progress token, emits nothing (so the buffer is never appended to),
and the result is independent of the decode outcome: no decode is
consulted. -/
theorem C7_modifier_suppression (cfg : EngineConfig) (t : List Nat)
    (dec dec' : DecodeOutcome) :
    process_key_event cfg t (.key true dec) = ([], [])
    ∧ process_key_event cfg t (.key true dec) =
        process_key_event cfg t (.key true dec') := by
  exact ⟨rfl, rfl⟩

/-! ### Claim C8 -/

theorem parse_snd_eq (json : List Nat) (r : Registry) :
    (parse_keywords_json json r).2 =
      decide (0 < (parse_keywords_json json r).1.keywords.length) := rfl

/-- C8: missing arguments or a keyword configuration yielding zero
keywords exit with code 1 after an error message, hook-installation
failure exits with code 2 after an error message, the normal path exits
0 emitting only the ready message, and every emitted error message is
followed by a non-zero exit code. -/
theorem C8_exit_codes :
    (∀ h : Bool, mainModel none h = ([.errorUsage], 1))
    ∧ (∀ json h, (parse_keywords_json json initRegistry).1.keywords.length = 0 →
        mainModel (some json) h = ([.errorBadKeywords], 1))
    ∧ (∀ json, 0 < (parse_keywords_json json initRegistry).1.keywords.length →
        mainModel (some json) false = ([.errorHook], 2))
    ∧ (∀ json, 0 < (parse_keywords_json json initRegistry).1.keywords.length →
        mainModel (some json) true = ([.ready], 0))
    ∧ (∀ arg h m, m ∈ (mainModel arg h).1 → m.isError = true →
        (mainModel arg h).2 ≠ 0) := by
  have hbranch : ∀ json, (parse_keywords_json json initRegistry).2 =
      decide (0 < (parse_keywords_json json initRegistry).1.keywords.length) :=
    fun json => parse_snd_eq json initRegistry
  refine ⟨fun h => rfl, ?_, ?_, ?_, ?_⟩
  · intro json h hzero
    simp only [mainModel, hbranch, hzero]
    simp
  · intro json hpos
    simp only [mainModel, hbranch]
    simp [hpos]
  · intro json hpos
    simp only [mainModel, hbranch]
    simp [hpos]
  · intro arg h m hmem herr
    match arg with
    | none =>
      simp [mainModel]
    | some json =>
      simp only [mainModel] at hmem ⊢
      by_cases hp : (parse_keywords_json json initRegistry).2 = true
      · simp only [hp] at hmem ⊢
        by_cases hh : h = true
        · subst hh
          simp at hmem ⊢
          rw [hmem] at herr
          simp [StartupMsg.isError] at herr
        · rw [Bool.not_eq_true] at hh
          subst hh
          simp
      · rw [Bool.not_eq_true] at hp
        simp [hp]

/-- C8 witness: the four exit paths evaluated at concrete inputs (no
argument; the payload `["sig"]` with the hook succeeding and failing). -/
theorem C8_witness :
    mainModel none true = ([.errorUsage], 1)
    ∧ mainModel (some jsonSig) true = ([.ready], 0)
    ∧ mainModel (some jsonSig) false = ([.errorHook], 2) :=
  ⟨C8_exit_codes.1 true, C8_exit_codes.2.2.2.1 jsonSig (by decide),
    C8_exit_codes.2.2.1 jsonSig (by decide)⟩

/-! ### Claim C9 -/

/-- One registration preserves the capacity bound. -/
theorem append_keyword_length_le (r : Registry) (s : List Nat)
    (h : r.keywords.length ≤ MAX_KEYWORDS) :
    (append_keyword r s).1.keywords.length ≤ MAX_KEYWORDS := by
  simp only [append_keyword]
  split
  · exact h
  · rename_i hcap
    split
    · exact h
    · split
      · exact h
      · simp only [List.length_append, List.length_singleton]
        omega

/-- C9: a full registry (512 keywords) rejects every further
registration unchanged; one registration preserves the 512 bound; and
any sequence of registrations from the initial registry stays within
the 512 bound. -/
theorem C9_capacity (r : Registry) (s : List Nat) (ss : List (List Nat)) :
    (r.keywords.length = MAX_KEYWORDS → append_keyword r s = (r, false))
    ∧ (r.keywords.length ≤ MAX_KEYWORDS →
        (append_keyword r s).1.keywords.length ≤ MAX_KEYWORDS)
    ∧ (ss.foldl (fun acc kw => (append_keyword acc kw).1)
        initRegistry).keywords.length ≤ MAX_KEYWORDS := by
  refine ⟨?_, append_keyword_length_le r s, ?_⟩
  · intro hfull
    unfold append_keyword
    rw [if_pos (le_of_eq hfull.symm)]
  · have hgen : ∀ (l : List (List Nat)) (r0 : Registry),
        r0.keywords.length ≤ MAX_KEYWORDS →
        (l.foldl (fun acc kw => (append_keyword acc kw).1) r0).keywords.length
          ≤ MAX_KEYWORDS := by
      intro l
      induction l with
      | nil => intro r0 h0; exact h0
      | cons kw l ih =>
        intro r0 h0
        rw [List.foldl_cons]
        exact ih _ (append_keyword_length_le r0 kw h0)
    exact hgen ss initRegistry (by simp [initRegistry])

theorem rFull_length : rFull.keywords.length = MAX_KEYWORDS := by
  simp [rFull]

/-- C9 witness: the full registry of 512 two-letter keywords rejects a
further registration unchanged and stays within the bound. -/
theorem C9_witness :
    append_keyword rFull [107] = (rFull, false)
    ∧ (append_keyword rFull [107]).1.keywords.length ≤ MAX_KEYWORDS :=
  ⟨(C9_capacity rFull [107] []).1 rFull_length,
    (C9_capacity rFull [107] []).2.1 (le_of_eq rFull_length)⟩

/-! ### Claim C10 -/

/-- C10 counterexample: with registered keywords {"a", "ab", "abc"},
take k1 = "ab" (a registered proper prefix of the registered k2 =
"abc"): feeding the characters of k2 emits only the match event for
"a" — no event for k1 fires when the last character of k1 is
processed, refuting the claim as stated. -/
theorem C10_counterexample :
    [97] ∈ cfgABC.keywords
    ∧ [97, 98] ∈ cfgABC.keywords
    ∧ [97, 98, 99] ∈ cfgABC.keywords
    ∧ (runChars cfgABC [] [97, 98, 99]).2 = [⟨[97], 0⟩] := by
  refine ⟨by decide, by decide, by decide, by decide⟩

/-- C10 (amended): for registered keywords k1 and k2 = k1 ++ rest with
rest non-empty, PROVIDED no proper non-empty prefix of k1 is itself
registered, feeding the characters of k2 from an empty buffer emits the
match event for k1 (with the sentinel delimiter) exactly when the last
character of k1 is processed, clears the buffer, and never emits a
match event for k2. -/
theorem C10_prefix_shadows (cfg : EngineConfig) (k1 rest : List Nat)
    (h2 : cfg.maxKeywordLen ≤ MAX_KEYWORD_LEN)
    (hk1mem : k1 ∈ cfg.keywords) (_hk2mem : k1 ++ rest ∈ cfg.keywords)
    (hne1 : k1 ≠ []) (hner : rest ≠ [])
    (hlen : (k1 ++ rest).length ≤ cfg.maxKeywordLen)
    (hall : ∀ c ∈ k1 ++ rest, cfg.charsets.allowed c = true)
    (hfix : ∀ c ∈ k1 ++ rest, toLowerByte c = c)
    (hpre : ∀ i, 0 < i → i < k1.length → k1.take i ∉ cfg.keywords) :
    runChars cfg [] k1 = ([], [⟨k1, 0⟩])
    ∧ (runChars cfg [] (k1 ++ rest)).2 = ⟨k1, 0⟩ :: (runChars cfg [] rest).2
    ∧ ∀ e ∈ (runChars cfg [] (k1 ++ rest)).2, e.keyword ≠ k1 ++ rest := by
  have hlen1 : k1.length ≤ cfg.maxKeywordLen := by
    simp only [List.length_append] at hlen
    omega
  have hall1 : ∀ c ∈ k1, cfg.charsets.allowed c = true :=
    fun c hc => hall c (List.mem_append_left _ hc)
  have hfix1 : ∀ c ∈ k1, toLowerByte c = c :=
    fun c hc => hfix c (List.mem_append_left _ hc)
  have hfound : keyword_found cfg.keywords k1 = true :=
    (keyword_found_iff _ _).2 ⟨hne1, hk1mem⟩
  have hrun1 := runChars_no_prefix cfg h2 k1 hlen1 hall1 hfix1 hpre
  rw [hfound] at hrun1
  simp only [if_true] at hrun1
  have hsplit : (runChars cfg [] (k1 ++ rest)).2 =
      ⟨k1, 0⟩ :: (runChars cfg [] rest).2 := by
    rw [runChars_append, hrun1]
    simp
  refine ⟨hrun1, hsplit, ?_⟩
  intro e he
  rw [hsplit] at he
  have hrpos : 0 < rest.length := List.length_pos.2 hner
  have hk1pos : 0 < k1.length := List.length_pos.2 hne1
  rcases List.mem_cons.1 he with he | he
  · subst he
    intro hkeq
    simp only at hkeq
    have hlen2 := congrArg List.length hkeq
    simp only [List.length_append] at hlen2
    omega
  · have hb := runChars_event_length_le cfg rest [] e he
    intro hkeq
    rw [hkeq] at hb
    simp only [List.length_nil, Nat.zero_add, List.length_append] at hb
    omega

/-- C10 witness: keywords {"sig", "sigx"}: typing "sigx" fires the
match for "sig" at its last character and never fires one for "sigx". -/
theorem C10_witness :
    runChars cfgSig2 [] [115, 105, 103] = ([], [⟨[115, 105, 103], 0⟩])
    ∧ (runChars cfgSig2 [] ([115, 105, 103] ++ [120])).2 =
        ⟨[115, 105, 103], 0⟩ :: (runChars cfgSig2 [] [120]).2
    ∧ ∀ e ∈ (runChars cfgSig2 [] ([115, 105, 103] ++ [120])).2,
        e.keyword ≠ [115, 105, 103] ++ [120] :=
  C10_prefix_shadows cfgSig2 [115, 105, 103] [120] (by decide) (by decide)
    (by decide) (by decide) (by decide) (by decide) (by decide) (by decide)
    (by intro i hi hilt
        simp only [List.length_cons, List.length_nil] at hilt
        interval_cases i <;> decide)

end SnippetExpander
